import Mathlib

/-
Verification of the semantic-weight engine (src/semantic_analysis.py).

Shallow embedding notes:
* Python strings are modelled through their character lists (`String.data`);
  `str.strip`, `str.split(sep)`, `str.split(sep, maxsplit=1)`, `str.replace`
  and `int(...)` are re-implemented on `List Char` below, following CPython's
  observable behaviour on ASCII input (the analyzer protocol is ASCII).
* `LangElement` objects form a graph (children lists plus `parent`
  back-references), so elements live in an arena (`List LangElement`) and both
  `children` and `parent` hold arena indices; the synthetic root is index 0.
* Python numbers used by the scorer are modelled as `ℚ` (exact arithmetic in
  place of IEEE floats; every constant in the scorer is decimal).
* Filesystem and subprocess access (directory probing, the `target` descriptor
  file, the analyzer process) are the external boundary; they are supplied as
  an explicit environment `AnalysisEnv` of pure oracles.  The process-lifetime
  cache `SEMANTIC_ANALYZERS` is omitted: with a fixed environment it only
  short-circuits the directory probe and never changes any result.
-/

/-- Characters stripped by Python's `str.strip()` (ASCII whitespace). -/
def pyIsSpace (c : Char) : Bool :=
  c == ' ' || c == '\t' || c == '\n' || c == '\r' ||
  c == Char.ofNat 11 || c == Char.ofNat 12

/-- `str.strip()` on a character list: drop whitespace from both ends. -/
def stripChars (l : List Char) : List Char :=
  ((l.dropWhile pyIsSpace).reverse.dropWhile pyIsSpace).reverse

/-- `str.split(sep)` (unlimited splits) on a character list. -/
def splitChar (sep : Char) : List Char → List (List Char)
  | [] => [[]]
  | c :: rest =>
    match splitChar sep rest with
    | [] => if c == sep then [[], []] else [[c]]
    | h :: t => if c == sep then [] :: h :: t else (c :: h) :: t

/-- `str.split(sep, maxsplit=1)` on a character list. -/
def splitOnceChar (sep : Char) (l : List Char) : List (List Char) :=
  match splitChar sep l with
  | [] => [[]]
  | [x] => [x]
  | x :: rest => [x, List.intercalate [sep] rest]

/-- Digit runs accepted by Python's `int(...)`: nonempty, single underscores
allowed strictly between digits. -/
def digitsU : List Char → Bool
  | [] => false
  | [c] => c.isDigit
  | c :: '_' :: rest => c.isDigit && digitsU rest
  | c :: rest => c.isDigit && digitsU rest

/-- Numeric value of a digit-and-underscore run. -/
def digitsToNat (l : List Char) : Nat :=
  l.foldl (fun acc c => if c == '_' then acc else acc * 10 + (c.toNat - '0'.toNat)) 0

/-- Python's `int(s)`: strip whitespace, optional sign, digit run; `none`
models the `ValueError` raised on anything else. -/
def pyIntOfChars (l : List Char) : Option Int :=
  match stripChars l with
  | [] => none
  | c :: rest =>
    if c == '-' then (if digitsU rest then some (-(digitsToNat rest : Int)) else none)
    else if c == '+' then (if digitsU rest then some ((digitsToNat rest : Int)) else none)
    else (if digitsU (c :: rest) then some ((digitsToNat (c :: rest) : Int)) else none)

/-- `s.replace('[', '').replace(']', '')` on a character list. -/
def removeBrackets (l : List Char) : List Char :=
  (l.filter (fun c => c != '[')).filter (fun c => c != ']')

/-- One line of analyzer output, as `_parse_structure` reads it:
`split('-', maxsplit=1)`, the kind stripped, the range part stripped, bracket
characters removed, split on `-`, first two components through `int`.
`none` models the `IndexError`/`ValueError` that aborts the parse. -/
def parseLine (line : String) : Option (String × Int × Int) :=
  match splitOnceChar '-' line.data with
  | s0 :: s1 :: _ =>
    let kind : String := ⟨stripChars s0⟩
    (match splitChar '-' (removeBrackets (stripChars s1)) with
     | r0 :: r1 :: _ =>
       (match pyIntOfChars r0, pyIntOfChars r1 with
        | some s, some e => some (kind, s, e)
        | _, _ => none)
     | _ => none)
  | _ => none

/-- Tree node of `semantic_analysis.LangElement`; `parent` and `children`
hold arena indices (index 0 is the synthetic root of its arena). -/
structure LangElement where
  kind : String
  parent : Option Nat
  children : List Nat
  start : Int
  «end» : Int
deriving DecidableEq, Inhabited

/-- `LangElement.in_range`. -/
def LangElement.in_range (self : LangElement) (start «end» : Int) : Bool :=
  decide (self.start ≤ start) && decide (self.«end» ≥ «end»)

/-- Resolve the children indices of an element in its arena. -/
def LangElement.childElems (self : LangElement) (nodes : List LangElement) :
    List LangElement :=
  self.children.filterMap (fun i => nodes[i]?)

/-- `LangElement.classes`: self plus direct children, filtered to kind
`class`. -/
def LangElement.classes (self : LangElement) (nodes : List LangElement) :
    List LangElement :=
  (self :: self.childElems nodes).filter (fun x => x.kind == "class")

/-- `LangElement.functions`: direct children of kind `function`. -/
def LangElement.functions (self : LangElement) (nodes : List LangElement) :
    List LangElement :=
  (self.childElems nodes).filter (fun x => x.kind == "function")

/-- `LangElement.fields`: direct children of kind `field`. -/
def LangElement.fields (self : LangElement) (nodes : List LangElement) :
    List LangElement :=
  (self.childElems nodes).filter (fun x => x.kind == "field")

/-- `LangElement.properties`: direct children of kind `property`. -/
def LangElement.properties (self : LangElement) (nodes : List LangElement) :
    List LangElement :=
  (self.childElems nodes).filter (fun x => x.kind == "property")

/-- Modelled from the spec: the record `SemanticWeightModel` (its defining
module `semantic_weight_model.py` is not under src/; src only reads these
fields).  Spec §3: "a bundle of numeric thresholds and multipliers"; the
default-constructed instance is the zero-valued model of the fallback pair. -/
structure SemanticWeightModel where
  base_length_weight : ℚ := 0
  base_class_weight : ℚ := 0
  base_function_weight : ℚ := 0
  base_property_or_field_weight : ℚ := 0
  length_upper_limit : ℚ := 0
  length_upper_limit_multiplier : ℚ := 0
  length_lower_limit : ℚ := 0
  length_lower_limit_multiplier : ℚ := 0
  class_upper_limit : ℚ := 0
  class_upper_limit_multiplier : ℚ := 0
  function_upper_limit : ℚ := 0
  function_upper_limit_multiplier : ℚ := 0
  function_lower_limit : ℚ := 0
  function_lower_limit_multiplier : ℚ := 0
  property_field_upper_limit : ℚ := 0
  property_field_upper_limit_multiplier : ℚ := 0
  property_field_lower_limit : ℚ := 0
  property_field_lower_limit_multiplier : ℚ := 0
deriving DecidableEq, Inhabited

/-- `LangElement.compute_weight`, line for line from the source: four
multipliers defaulting to `1.0`, each possibly overridden by its threshold
rule, accumulated into `weight`. -/
def LangElement.compute_weight (self : LangElement) (nodes : List LangElement)
    (weight_model : SemanticWeightModel) : ℚ :=
  let total_length_multiplier : ℚ :=
    if (self.«end» : ℚ) > weight_model.length_upper_limit then
      weight_model.length_upper_limit_multiplier
    else if (self.«end» : ℚ) < weight_model.length_lower_limit then
      weight_model.length_lower_limit_multiplier
    else 1
  let weight : ℚ := 0 + weight_model.base_length_weight * total_length_multiplier
  let class_count : ℕ := (self.classes nodes).length
  let class_count_multiplier : ℚ :=
    if (class_count : ℚ) > weight_model.class_upper_limit then
      weight_model.class_upper_limit_multiplier - 0.2 * ((class_count : ℚ) - 1)
    else 1
  let weight := weight + weight_model.base_class_weight * class_count_multiplier
  let function_count : ℕ := (self.functions nodes).length
  let function_count_multiplier : ℚ :=
    if (function_count : ℚ) > weight_model.function_upper_limit then
      weight_model.function_upper_limit_multiplier - 0.05 * ((function_count : ℚ) - 20)
    else if (function_count : ℚ) < weight_model.function_lower_limit then
      weight_model.function_lower_limit_multiplier - 0.1 * (4 - (function_count : ℚ))
    else 1
  let weight := weight + weight_model.base_function_weight * function_count_multiplier
  let property_or_field_count : ℕ :=
    (self.fields nodes ++ self.properties nodes).length
  let property_or_field_count_multiplier : ℚ :=
    if (property_or_field_count : ℚ) > weight_model.property_field_upper_limit then
      weight_model.property_field_upper_limit_multiplier -
        0.05 * ((property_or_field_count : ℚ) - 20)
    else if (property_or_field_count : ℚ) < weight_model.property_field_lower_limit then
      weight_model.property_field_lower_limit_multiplier -
        0.05 * (4 - (property_or_field_count : ℚ))
    else 1
  weight + weight_model.base_property_or_field_weight * property_or_field_count_multiplier

/-- State of `_parse_structure`'s loop: the arena of elements built so far
(the synthetic root at index 0) and the index of the current anchor (the
source's mutable `parent` variable). -/
structure ParseState where
  nodes : List LangElement
  parentIdx : Nat
deriving DecidableEq, Inhabited

/-- The synthetic root `LangElement('root', None, [])`. -/
def rootInit : LangElement := ⟨"root", none, [], 0, 0⟩

/-- State before the first line: `root = parent = LangElement('root', None, [])`. -/
def initState : ParseState := ⟨[rootInit], 0⟩

/-- One iteration of `_parse_structure`'s loop: parse the line, create the
element with the current anchor as its `parent` field, raise `root.end` to the
element's `end` if needed, then attach to the anchor if the element is in its
range, else attach to root and (for a `class`) move the anchor. -/
def parseStep (st : ParseState) (line : String) : Option ParseState :=
  match parseLine line with
  | none => none
  | some (kind, s, e) =>
    let idx := st.nodes.length
    let elem : LangElement := ⟨kind, some st.parentIdx, [], s, e⟩
    let nodes1 := st.nodes ++ [elem]
    let root0 := nodes1.getD 0 default
    let nodes2 := if root0.«end» < e then nodes1.set 0 { root0 with «end» := e } else nodes1
    let anchor := nodes2.getD st.parentIdx default
    if anchor.in_range s e then
      some ⟨nodes2.set st.parentIdx { anchor with children := anchor.children ++ [idx] },
            st.parentIdx⟩
    else
      let root := nodes2.getD 0 default
      let nodes3 := nodes2.set 0 { root with children := root.children ++ [idx] }
      some ⟨nodes3, if kind == "class" then idx else st.parentIdx⟩

/-- The loop of `_parse_structure` over the remaining lines. -/
def parseLines (st : ParseState) : List String → Option ParseState
  | [] => some st
  | line :: rest =>
    match parseStep st line with
    | none => none
    | some st2 => parseLines st2 rest

/-- `LangSemantics._parse_structure`: `none` models the uncaught exception of
a malformed line (fatal, no partial tree escapes). -/
def parse_structure (lines : List String) : Option ParseState :=
  parseLines initState lines

/-- The element a successfully parsed line contributes, given that the anchor
is the root when it is created (`parent = some 0`, no children yet). -/
def nodeOfLine (line : String) : Option LangElement :=
  (parseLine line).map (fun p => ⟨p.1, some 0, [], p.2.1, p.2.2⟩)

/-- One update of `root.end` by a line: raised to the line's `end` when
larger (a line that fails to parse never reaches the update). -/
def rootEndStep (acc : Int) (line : String) : Int :=
  match parseLine line with
  | some (_, _, e) => if acc < e then e else acc
  | none => acc

/-- The value `root.end` accumulates over the lines, starting at 0. -/
def rootEndSpec (lines : List String) : Int :=
  lines.foldl rootEndStep 0

/-- Modelled from the spec: the per-line output grammar of §4.3/§6,
`<kind><ws>-<ws>[<start>-<end>]` with kind a (trimmed) identifier and
start/end integer digit runs inside the brackets; surrounding whitespace
(including the trailing newline the invoker keeps) tolerated. -/
def isIdentChar (c : Char) : Bool := c.isAlpha || c.isDigit || c == '_'

/-- Modelled from the spec: whether a line satisfies the §4.3 grammar
(whitespace around the separators and the brackets tolerated). -/
def specGrammarLine (l : List Char) : Bool :=
  let t := stripChars l
  let kind := t.takeWhile isIdentChar
  let rest := (t.dropWhile isIdentChar).dropWhile pyIsSpace
  !kind.isEmpty &&
    match rest with
    | '-' :: rest1 =>
      (match rest1.dropWhile pyIsSpace with
       | '[' :: rest2 =>
         let rest2 := rest2.dropWhile pyIsSpace
         let d1 := rest2.takeWhile Char.isDigit
         let rest3 := (rest2.dropWhile Char.isDigit).dropWhile pyIsSpace
         !d1.isEmpty &&
           (match rest3 with
            | '-' :: rest4 =>
              let rest4 := rest4.dropWhile pyIsSpace
              let d2 := rest4.takeWhile Char.isDigit
              let rest5 := (rest4.dropWhile Char.isDigit).dropWhile pyIsSpace
              !d2.isEmpty && rest5 == [']']
            | _ => false)
       | _ => false)
    | _ => false

/-- Modelled from the spec: the length term of the §4.4 scoring table. -/
def specLengthTerm (wm : SemanticWeightModel) (el : LangElement) : ℚ :=
  wm.base_length_weight *
    (if (el.«end» : ℚ) > wm.length_upper_limit then wm.length_upper_limit_multiplier
     else if (el.«end» : ℚ) < wm.length_lower_limit then wm.length_lower_limit_multiplier
     else 1)

/-- Modelled from the spec: the class term of the §4.4 scoring table (no
lower-bound rule). -/
def specClassTerm (wm : SemanticWeightModel) (el : LangElement)
    (nodes : List LangElement) : ℚ :=
  let count : ℚ := ((el.classes nodes).length : ℚ)
  wm.base_class_weight *
    (if count > wm.class_upper_limit then
       wm.class_upper_limit_multiplier - 0.2 * (count - 1)
     else 1)

/-- Modelled from the spec: the function term of the §4.4 scoring table. -/
def specFunctionTerm (wm : SemanticWeightModel) (el : LangElement)
    (nodes : List LangElement) : ℚ :=
  let count : ℚ := ((el.functions nodes).length : ℚ)
  wm.base_function_weight *
    (if count > wm.function_upper_limit then
       wm.function_upper_limit_multiplier - 0.05 * (count - 20)
     else if count < wm.function_lower_limit then
       wm.function_lower_limit_multiplier - 0.1 * (4 - count)
     else 1)

/-- Modelled from the spec: the property/field term of the §4.4 scoring
table (size of fields plus properties). -/
def specPropertyFieldTerm (wm : SemanticWeightModel) (el : LangElement)
    (nodes : List LangElement) : ℚ :=
  let count : ℚ := ((el.fields nodes).length + (el.properties nodes).length : ℚ)
  wm.base_property_or_field_weight *
    (if count > wm.property_field_upper_limit then
       wm.property_field_upper_limit_multiplier - 0.05 * (count - 20)
     else if count < wm.property_field_lower_limit then
       wm.property_field_lower_limit_multiplier - 0.05 * (4 - count)
     else 1)

/-- `LangSemantics`: an analyzer resolved for one extension (directory plus
the command read from its `target` descriptor). -/
structure LangSemantics where
  lang_dir : String
  tool : String
deriving DecidableEq, Inhabited

/-- Failures of one file's analysis: `analyzerExecutionError` models the
`CalledProcessError` of `subprocess.run(..., check=True)` on a non-zero
exit; `malformedOutput` the uncaught exception of `_parse_structure`;
`noSemanticParser` the `AssertionError` of `compute_semantic_weight`. -/
inductive AnalysisError where
  | analyzerExecutionError (exitCode : Int)
  | malformedOutput
  | noSemanticParser (file : String)
deriving DecidableEq

/-- External boundary of the engine, as pure oracles: whether the
directory-per-extension convention has a folder for an extension, the text of
its `target` descriptor, the analyzer process (exit status and captured
stdout, already decoded and split into lines), and the per-file weight model
supplied by the model-loading collaborator. -/
structure AnalysisEnv where
  folderExists : String → Bool
  targetContent : String → String
  run : LangSemantics → String → Int × List String
  modelFor : String → SemanticWeightModel

/-- `LangSemantics.analyze`: run the analyzer process; a non-zero exit status
raises before any output is read; otherwise the output lines are parsed and
the file's weight model is loaded. -/
def LangSemantics.analyze (self : LangSemantics) (env : AnalysisEnv)
    (file : String) : Except AnalysisError (SemanticWeightModel × ParseState) :=
  let out := env.run self file
  if out.1 ≠ 0 then .error (.analyzerExecutionError out.1)
  else
    match parse_structure out.2 with
    | none => .error .malformedOutput
    | some st => .ok (env.modelFor file, st)

/-- `pathlib.PurePath.suffix` on a file name (its final component): the part
from the last dot on, unless that dot is the first or last character. -/
def pySuffixChars (name : List Char) : List Char :=
  let tailAfter := name.reverse.takeWhile (fun c => c != '.')
  if tailAfter.length = name.length then []
  else
    let i := name.length - 1 - tailAfter.length
    if 0 < i ∧ 0 < tailAfter.length then name.drop i else []

/-- `s.lstrip('.')`. -/
def lstripDot (l : List Char) : List Char := l.dropWhile (fun c => c == '.')

/-- `name.startswith('.')`. -/
def startsWithDot (s : String) : Bool :=
  match s.data with
  | '.' :: _ => true
  | _ => false

/-- `load_semantic_parser`: derive the extension key (suffix without dots,
or the whole name for a dotfile), return `none` when no key or no analyzer
folder exists, otherwise the analyzer with its descriptor command.  Files are
modelled by their final name component; the process-lifetime cache is
omitted (see the header note). -/
def loadSemanticParser (env : AnalysisEnv) (file : String) : Option LangSemantics :=
  let ext0 : String := ⟨lstripDot (pySuffixChars file.data)⟩
  let extension := if ext0 = "" && startsWithDot file then file else ext0
  if extension = "" then none
  else if env.folderExists extension then some ⟨extension, env.targetContent extension⟩
  else none

/-- `has_semantic_parser`. -/
def hasSemanticParser (env : AnalysisEnv) (file : String) : Bool :=
  (loadSemanticParser env file).isSome

/-- `compute_semantic_weight`: `assert semantics is not None` becomes the
`noSemanticParser` error when no analyzer resolves. -/
def compute_semantic_weight (env : AnalysisEnv) (file : String) :
    Except AnalysisError (SemanticWeightModel × ParseState) :=
  match loadSemanticParser env file with
  | none => .error (.noSemanticParser file)
  | some sem => sem.analyze env file

/-- A group of files (`lib.FileGroup`), each modelled by its name. -/
structure FileGroup where
  files : List String
deriving DecidableEq

/-- The fallback pair of the orchestrator: a default-constructed
`SemanticWeightModel()` and a fresh `LangElement('root', None, [])`. -/
def fallbackPair : SemanticWeightModel × ParseState := ({}, ⟨[rootInit], 0⟩)

/-- The loop of `compute_semantic_weight_grouped` over a group's files:
analyze supported files, emit the fallback pair for the rest; a raised
exception aborts the whole loop.  (`file.absolute()` changes only the
directory prefix, never the name or suffix, and is dropped.) -/
def groupedFiles (env : AnalysisEnv) :
    List String → Except AnalysisError (List (SemanticWeightModel × ParseState))
  | [] => .ok []
  | file :: rest =>
    match
      (if hasSemanticParser env file then compute_semantic_weight env file
       else .ok fallbackPair) with
    | .error e => .error e
    | .ok p =>
      match groupedFiles env rest with
      | .error e => .error e
      | .ok r => .ok (p :: r)

/-- `compute_semantic_weight_grouped`. -/
def compute_semantic_weight_grouped (env : AnalysisEnv) (file_group : FileGroup) :
    Except AnalysisError (List (SemanticWeightModel × ParseState)) :=
  groupedFiles env file_group.files

/-- The loop of `compute_semantic_weight_result` over the groups (the verbose
progress printing is observability only and is dropped). -/
def resultGroups (env : AnalysisEnv) :
    List FileGroup → Except AnalysisError (List (List (SemanticWeightModel × ParseState)))
  | [] => .ok []
  | g :: rest =>
    match compute_semantic_weight_grouped env g with
    | .error e => .error e
    | .ok r =>
      match resultGroups env rest with
      | .error e => .error e
      | .ok rs => .ok (r :: rs)

/-- `compute_semantic_weight_result`. -/
def compute_semantic_weight_result (env : AnalysisEnv) (file_group : List FileGroup) :
    Except AnalysisError (List (List (SemanticWeightModel × ParseState))) :=
  resultGroups env file_group

/-! ### Loop invariant and concrete inputs used by the theorems -/

def ParseInv (lines : List String) (st : ParseState) : Prop :=
  st.parentIdx = 0 ∧
  st.nodes.length = lines.length + 1 ∧
  st.nodes[0]? = some ⟨"root", none, List.range' 1 lines.length, 0, rootEndSpec lines⟩ ∧
  ∀ k : Nat, st.nodes[k + 1]? = (lines[k]?).bind nodeOfLine

/-- The four-line end-to-end input of C1. -/
def c1Lines : List String :=
  ["class - [0-100]", "function - [10-20]", "function - [30-40]", "class - [110-120]"]

/-- What `_parse_structure` actually builds from `c1Lines`. -/
def c1Result : ParseState :=
  ⟨[⟨"root", none, [1, 2, 3, 4], 0, 120⟩,
    ⟨"class", some 0, [], 0, 100⟩,
    ⟨"function", some 0, [], 10, 20⟩,
    ⟨"function", some 0, [], 30, 40⟩,
    ⟨"class", some 0, [], 110, 120⟩], 0⟩

/-- Concrete input for the C4 witness. -/
def c4Lines : List String := ["class - [0-100]"]

/-- Concrete input for the C2 witness. -/
def c2Lines : List String := ["class - [0-100]", "function - [10-20]"]

/-- The grammar-violating line of the C5 counterexample (no brackets). -/
def c5BadLine : String := "class - 0-100"

/-- The reversed-range input of the C8 counterexample. -/
def c8Lines : List String := ["class - [100-5]"]

/-- What `_parse_structure` builds from `c8Lines`. -/
def c8Result : ParseState :=
  ⟨[⟨"root", none, [1], 0, 5⟩, ⟨"class", some 0, [], 100, 5⟩], 0⟩

/-- The input of the C9 counterexample: two sibling classes followed by a
far-away function, the shape that the claimed stale-anchor scenario needs. -/
def c9Lines : List String :=
  ["class - [0-10]", "class - [20-30]", "function - [100-200]"]

/-- What `_parse_structure` builds from `c9Lines`. -/
def c9Result : ParseState :=
  ⟨[⟨"root", none, [1, 2, 3], 0, 200⟩,
    ⟨"class", some 0, [], 0, 10⟩,
    ⟨"class", some 0, [], 20, 30⟩,
    ⟨"function", some 0, [], 100, 200⟩], 0⟩

/-- The concrete environment of the C6 witness: only the `cs` extension has
an analyzer; the analyzer process exits 0 and prints one class line. -/
def c6Env : AnalysisEnv :=
  ⟨fun ext => ext == "cs", fun _ => "dotnet run", fun _ _ => (0, ["class - [0-100]"]),
   fun _ => {}⟩

/-- The concrete input of the C6 witness: one group holding a supported and
an unsupported file. -/
def c6Groups : List FileGroup := [⟨["a.cs", "b.bin"]⟩]

/-- The failing-analyzer environment of the C7 witness: exit status 1 with
well-formed output that must nevertheless be discarded. -/
def c7Env : AnalysisEnv :=
  ⟨fun _ => true, fun _ => "dotnet run", fun _ _ => (1, ["class - [0-100]"]),
   fun _ => {}⟩

/-- The empty environment of the C10 witness: no analyzer folder exists. -/
def c10Env : AnalysisEnv :=
  ⟨fun _ => false, fun _ => "", fun _ _ => (0, []), fun _ => {}⟩

/-! ### Helper lemmas about the line parser -/

theorem splitChar_ne_nil (sep : Char) (l : List Char) : splitChar sep l ≠ [] := by
  cases l with
  | nil => simp [splitChar]
  | cons c rest =>
    simp only [splitChar]
    split <;> split <;> simp

theorem sep_not_mem_of_mem_splitChar {sep : Char} {l p : List Char}
    (hp : p ∈ splitChar sep l) : sep ∉ p := by
  induction l generalizing p with
  | nil =>
    simp only [splitChar, List.mem_singleton] at hp
    subst hp; simp
  | cons c rest ih =>
    cases hsp : splitChar sep rest with
    | nil => exact absurd hsp (splitChar_ne_nil sep rest)
    | cons a t =>
      simp only [splitChar, hsp] at hp
      cases hcb : c == sep with
      | true =>
        rw [hcb] at hp
        simp only [if_true] at hp
        rcases List.mem_cons.mp hp with rfl | hp'
        · simp
        · exact ih (hsp ▸ hp')
      | false =>
        rw [hcb] at hp
        simp only [Bool.false_eq_true, if_false] at hp
        rcases List.mem_cons.mp hp with rfl | hp'
        · intro hmem
          rcases List.mem_cons.mp hmem with heq | hmem'
          · rw [heq] at hcb; simp at hcb
          · exact ih (hsp ▸ List.mem_cons_self a t) hmem'
        · exact ih (hsp ▸ List.mem_cons_of_mem a hp')

theorem mem_of_mem_stripChars {x : Char} {l : List Char} (h : x ∈ stripChars l) :
    x ∈ l := by
  unfold stripChars at h
  rw [List.mem_reverse] at h
  have h2 := List.dropWhile_subset (l := (l.dropWhile pyIsSpace).reverse) pyIsSpace h
  rw [List.mem_reverse] at h2
  exact List.dropWhile_subset pyIsSpace h2

theorem pyIntOfChars_nonneg {l : List Char} {v : Int}
    (hv : pyIntOfChars l = some v) (hm : '-' ∉ l) : 0 ≤ v := by
  unfold pyIntOfChars at hv
  cases ht : stripChars l with
  | nil => simp only [ht] at hv; cases hv
  | cons c rest =>
    simp only [ht] at hv
    have hcm : c ∈ l := mem_of_mem_stripChars (ht ▸ List.mem_cons_self c rest)
    have hc : (c == '-') = false := by
      cases hcc : c == '-' with
      | true => exact absurd (eq_of_beq hcc ▸ hcm) hm
      | false => rfl
    rw [hc] at hv
    simp only [Bool.false_eq_true, if_false] at hv
    split at hv <;> split at hv <;>
      first
        | (cases hv; exact Int.natCast_nonneg _)
        | cases hv

theorem parseLine_nonneg {line : String} {k : String} {s e : Int}
    (h : parseLine line = some (k, s, e)) : 0 ≤ s ∧ 0 ≤ e := by
  unfold parseLine at h
  split at h
  case h_2 => cases h
  case h_1 s0 s1 t heq =>
    split at h
    case h_2 => cases h
    case h_1 r0 r1 t2 heq2 =>
      split at h
      case h_2 => cases h
      case h_1 sv ev heq3 heq4 =>
        cases h
        have hr0 : r0 ∈ splitChar '-' (removeBrackets (stripChars s1)) :=
          heq2 ▸ List.mem_cons_self r0 (r1 :: t2)
        have hr1 : r1 ∈ splitChar '-' (removeBrackets (stripChars s1)) :=
          heq2 ▸ List.mem_cons_of_mem r0 (List.mem_cons_self r1 t2)
        exact ⟨pyIntOfChars_nonneg heq3 (sep_not_mem_of_mem_splitChar hr0),
               pyIntOfChars_nonneg heq4 (sep_not_mem_of_mem_splitChar hr1)⟩

/-! ### The loop invariant of the structure builder

Because every parsed `start` is non-negative (a line's `-` separator consumes
any character that could make `int` see a sign) and `root.end` is raised
before the containment check, the anchor check always succeeds against the
root: the anchor pointer never leaves index 0 and every element becomes a
direct child of the root. -/

theorem parseInv_init : ParseInv [] initState := by
  refine ⟨rfl, rfl, rfl, ?_⟩
  intro k
  simp [initState, rootInit]

theorem rootEndSpec_append_single (lines : List String) (line : String) :
    rootEndSpec (lines ++ [line]) = rootEndStep (rootEndSpec lines) line := by
  simp [rootEndSpec, List.foldl_append]

theorem parseStep_at_root {st : ParseState} {line kind : String} {s e : Int}
    {ch : List Nat} {E : Int}
    (hpi : st.parentIdx = 0)
    (hroot : st.nodes[0]? = some ⟨"root", none, ch, 0, E⟩)
    (hl : parseLine line = some (kind, s, e)) (hs : 0 ≤ s) :
    parseStep st line =
      some ⟨(st.nodes ++ [(⟨kind, some 0, [], s, e⟩ : LangElement)]).set 0
              ⟨"root", none, ch ++ [st.nodes.length], 0, if E < e then e else E⟩,
            0⟩ := by
  have hlen0 : 0 < st.nodes.length := (List.getElem?_eq_some.mp hroot).1
  simp only [parseStep, hl, hpi]
  have hget1 : (st.nodes ++ [(⟨kind, some 0, [], s, e⟩ : LangElement)]).getD 0 default =
      (⟨"root", none, ch, 0, E⟩ : LangElement) := by
    rw [List.getD_eq_getElem?_getD, List.getElem?_append_left hlen0, hroot]
    rfl
  rw [hget1]
  by_cases hE : E < e
  · rw [if_pos hE]
    have hlen1 : 0 < (st.nodes ++ [(⟨kind, some 0, [], s, e⟩ : LangElement)]).length := by
      simp
    have hget2 :
        ((st.nodes ++ [(⟨kind, some 0, [], s, e⟩ : LangElement)]).set 0
          ⟨"root", none, ch, 0, e⟩).getD 0 default =
        (⟨"root", none, ch, 0, e⟩ : LangElement) := by
      rw [List.getD_eq_getElem?_getD, List.getElem?_set_eq_of_lt _ hlen1]
      rfl
    rw [hget2]
    have hir : LangElement.in_range ⟨"root", none, ch, 0, e⟩ s e = true := by
      simp [LangElement.in_range, hs]
    rw [hir]
    simp [List.set_set, hE]
  · rw [if_neg hE]
    rw [hget1]
    have hir : LangElement.in_range ⟨"root", none, ch, 0, E⟩ s e = true := by
      simp only [LangElement.in_range, Bool.and_eq_true, decide_eq_true_eq]
      exact ⟨hs, by omega⟩
    rw [hir]
    simp [hE]

theorem parseStep_inv {lines : List String} {st st2 : ParseState} {line : String}
    (hinv : ParseInv lines st) (hstep : parseStep st line = some st2) :
    ParseInv (lines ++ [line]) st2 := by
  obtain ⟨hpi, hlen, hroot, hnodes⟩ := hinv
  cases hl : parseLine line with
  | none => rw [parseStep, hl] at hstep; cases hstep
  | some p =>
    obtain ⟨kind, s, e⟩ := p
    have hs := (parseLine_nonneg hl).1
    have heq := parseStep_at_root hpi hroot hl hs
    rw [heq] at hstep
    cases hstep
    refine ⟨rfl, ?_, ?_, ?_⟩
    · simp [hlen]
    · have hlt : 0 < (st.nodes ++ [(⟨kind, some 0, [], s, e⟩ : LangElement)]).length := by
        simp
      rw [List.getElem?_set_eq_of_lt _ hlt]
      have hch : List.range' 1 lines.length ++ [st.nodes.length] =
          List.range' 1 (lines ++ [line]).length := by
        have hr : List.range' 1 (lines.length + 1) =
            List.range' 1 lines.length ++ [1 + 1 * lines.length] :=
          List.range'_concat 1 lines.length
        simp only [List.length_append, List.length_singleton]
        rw [hr, hlen]
        simp [Nat.add_comm]
      have hend : (if rootEndSpec lines < e then e else rootEndSpec lines) =
          rootEndSpec (lines ++ [line]) := by
        rw [rootEndSpec_append_single]
        simp [rootEndStep, hl]
      rw [hch, hend]
    · intro k
      have hk1 : (0 : Nat) ≠ k + 1 := by omega
      rw [List.getElem?_set_ne hk1]
      rcases Nat.lt_trichotomy k lines.length with hk | hk | hk
      · have hkl : k + 1 < st.nodes.length := by omega
        rw [List.getElem?_append_left hkl, hnodes k, List.getElem?_append_left hk]
      · rw [hk, ← hlen, List.getElem?_concat_length, List.getElem?_concat_length]
        simp [nodeOfLine, hl]
      · have h1 : (st.nodes ++ [(⟨kind, some 0, [], s, e⟩ : LangElement)]).length ≤ k + 1 := by
          simp [hlen]; omega
        have h2 : (lines ++ [line]).length ≤ k := by simp; omega
        rw [List.getElem?_eq_none h1, List.getElem?_eq_none h2]
        rfl

theorem parseLines_inv {rest processed : List String} {st st' : ParseState}
    (h : ParseInv processed st) (hp : parseLines st rest = some st') :
    ParseInv (processed ++ rest) st' := by
  induction rest generalizing processed st with
  | nil =>
    simp only [parseLines] at hp
    cases hp
    simpa using h
  | cons line rest ih =>
    simp only [parseLines] at hp
    cases hs : parseStep st line with
    | none => rw [hs] at hp; cases hp
    | some st2 =>
      simp only [hs] at hp
      have h3 := ih (parseStep_inv h hs) hp
      simpa [List.append_assoc] using h3

theorem parse_structure_inv {lines : List String} {st : ParseState}
    (h : parse_structure lines = some st) : ParseInv lines st := by
  unfold parse_structure at h
  simpa using parseLines_inv parseInv_init h

/-! ### Arithmetic of the accumulated root end -/

theorem le_rootEndStep (acc : Int) (line : String) : acc ≤ rootEndStep acc line := by
  unfold rootEndStep
  split
  · split <;> omega
  · omega

theorem rootEndStep_ge {acc : Int} {line : String} {k : String} {s e : Int}
    (h : parseLine line = some (k, s, e)) : e ≤ rootEndStep acc line := by
  simp only [rootEndStep, h]
  split <;> omega

theorem le_foldl_rootEndStep (L : List String) (acc : Int) :
    acc ≤ L.foldl rootEndStep acc := by
  induction L generalizing acc with
  | nil => simp
  | cons l L ih =>
    simp only [List.foldl_cons]
    exact le_trans (le_rootEndStep acc l) (ih _)

theorem rootEndSpec_nonneg (lines : List String) : 0 ≤ rootEndSpec lines :=
  le_foldl_rootEndStep lines 0

theorem end_le_rootEndSpec {lines : List String} {line : String} {k : String}
    {s e : Int} (hmem : line ∈ lines) (h : parseLine line = some (k, s, e)) :
    e ≤ rootEndSpec lines := by
  obtain ⟨l1, l2, rfl⟩ := List.append_of_mem hmem
  unfold rootEndSpec
  rw [List.foldl_append, List.foldl_cons]
  exact le_trans (rootEndStep_ge h) (le_foldl_rootEndStep _ _)

theorem foldl_rootEndStep_attained (L : List String) (acc : Int) :
    L.foldl rootEndStep acc = acc ∨
    ∃ line ∈ L, ∃ k s e, parseLine line = some (k, s, e) ∧
      L.foldl rootEndStep acc = e := by
  induction L generalizing acc with
  | nil => left; rfl
  | cons l L ih =>
    simp only [List.foldl_cons]
    rcases ih (rootEndStep acc l) with h | ⟨line, hmem, k, s, e, hp, hval⟩
    · rw [h]
      cases hl : parseLine l with
      | none => left; simp [rootEndStep, hl]
      | some p =>
        obtain ⟨k, s, e⟩ := p
        by_cases hlt : acc < e
        · right
          exact ⟨l, List.mem_cons_self l L, k, s, e, hl, by simp [rootEndStep, hl, hlt]⟩
        · left; simp [rootEndStep, hl, hlt]
    · right
      exact ⟨line, List.mem_cons_of_mem l hmem, k, s, e, hp, hval⟩

theorem rootEndSpec_attained (lines : List String) :
    rootEndSpec lines = 0 ∨
    ∃ line ∈ lines, ∃ k s e, parseLine line = some (k, s, e) ∧
      rootEndSpec lines = e :=
  foldl_rootEndStep_attained lines 0

/-! ### Fatality of a malformed line, and prefix runs -/

theorem parseLines_eq_none_of_bad {line : String} (hbad : parseLine line = none) :
    ∀ rest : List String, line ∈ rest → ∀ st : ParseState,
      parseLines st rest = none := by
  intro rest
  induction rest with
  | nil => intro h; cases h
  | cons l rest ih =>
    intro hmem st
    simp only [parseLines]
    rcases List.mem_cons.mp hmem with rfl | hmem'
    · have hstep : parseStep st line = none := by simp [parseStep, hbad]
      simp [hstep]
    · cases hs : parseStep st l with
      | none => simp [hs]
      | some st2 => simp only [hs]; exact ih hmem' st2

theorem parse_structure_eq_none_of_bad {lines : List String} {line : String}
    (hmem : line ∈ lines) (hbad : parseLine line = none) :
    parse_structure lines = none := by
  unfold parse_structure
  exact parseLines_eq_none_of_bad hbad lines hmem initState

theorem parseLines_append_some {pre suf : List String} {st st' : ParseState}
    (h : parseLines st (pre ++ suf) = some st') :
    ∃ stm, parseLines st pre = some stm ∧ parseLines stm suf = some st' := by
  induction pre generalizing st with
  | nil => exact ⟨st, rfl, h⟩
  | cons l pre ih =>
    simp only [List.cons_append, parseLines] at h ⊢
    cases hs : parseStep st l with
    | none => simp only [hs] at h; cases h
    | some st2 =>
      simp only [hs] at h ⊢
      exact ih h

/-! ### The batch orchestrator -/

theorem groupedFiles_spec {env : AnalysisEnv} {files : List String}
    (h : ∀ f ∈ files, hasSemanticParser env f = true →
      ∃ p, compute_semantic_weight env f = .ok p) :
    ∃ r : List (SemanticWeightModel × ParseState),
      groupedFiles env files = .ok r ∧ r.length = files.length ∧
      ∀ k : Nat, ∀ f : String, files[k]? = some f →
        (hasSemanticParser env f = false → r[k]? = some fallbackPair) ∧
        (∀ p, compute_semantic_weight env f = .ok p →
          hasSemanticParser env f = true → r[k]? = some p) := by
  induction files with
  | nil =>
    refine ⟨[], rfl, rfl, ?_⟩
    intro k f hf
    simp at hf
  | cons f files ih =>
    obtain ⟨r, hr, hlen, hpt⟩ := ih (fun g hg => h g (List.mem_cons_of_mem f hg))
    cases hp : hasSemanticParser env f with
    | true =>
      obtain ⟨p, hpok⟩ := h f (List.mem_cons_self f files) hp
      refine ⟨p :: r, ?_, by simp [hlen], ?_⟩
      · simp only [groupedFiles, hp, if_true, hpok, hr]
      · intro k g hg
        cases k with
        | zero =>
          simp only [List.getElem?_cons_zero, Option.some.injEq] at hg
          subst hg
          refine ⟨?_, ?_⟩
          · intro hfalse; rw [hp] at hfalse; cases hfalse
          · intro p' hp' _
            rw [hpok] at hp'
            cases hp'
            simp
        | succ k =>
          simp only [List.getElem?_cons_succ] at hg ⊢
          exact hpt k g hg
    | false =>
      refine ⟨fallbackPair :: r, ?_, by simp [hlen], ?_⟩
      · simp only [groupedFiles, hp, Bool.false_eq_true, if_false, hr]
      · intro k g hg
        cases k with
        | zero =>
          simp only [List.getElem?_cons_zero, Option.some.injEq] at hg
          subst hg
          refine ⟨fun _ => by simp, ?_⟩
          intro p' _ htrue
          rw [hp] at htrue
          cases htrue
        | succ k =>
          simp only [List.getElem?_cons_succ] at hg ⊢
          exact hpt k g hg

theorem resultGroups_spec {env : AnalysisEnv} {groups : List FileGroup}
    (h : ∀ g ∈ groups, ∀ f ∈ g.files, hasSemanticParser env f = true →
      ∃ p, compute_semantic_weight env f = .ok p) :
    ∃ rs : List (List (SemanticWeightModel × ParseState)),
      resultGroups env groups = .ok rs ∧ rs.length = groups.length ∧
      ∀ gi : Nat, ∀ g : FileGroup, groups[gi]? = some g →
        ∃ r : List (SemanticWeightModel × ParseState),
          rs[gi]? = some r ∧ r.length = g.files.length ∧
          ∀ k : Nat, ∀ f : String, g.files[k]? = some f →
            (hasSemanticParser env f = false → r[k]? = some fallbackPair) ∧
            (∀ p, compute_semantic_weight env f = .ok p →
              hasSemanticParser env f = true → r[k]? = some p) := by
  induction groups with
  | nil =>
    refine ⟨[], rfl, rfl, ?_⟩
    intro gi g hg
    simp at hg
  | cons g groups ih =>
    obtain ⟨rs, hrs, hlen, hpt⟩ := ih (fun g' hg' => h g' (List.mem_cons_of_mem g hg'))
    obtain ⟨r, hr, hrlen, hrpt⟩ := groupedFiles_spec (h g (List.mem_cons_self g groups))
    refine ⟨r :: rs, ?_, by simp [hlen], ?_⟩
    · simp only [resultGroups, compute_semantic_weight_grouped, hr, hrs]
    · intro gi g' hg
      cases gi with
      | zero =>
        simp only [List.getElem?_cons_zero, Option.some.injEq] at hg
        subst hg
        exact ⟨r, by simp, hrlen, hrpt⟩
      | succ gi =>
        simp only [List.getElem?_cons_succ] at hg ⊢
        exact hpt gi g' hg

theorem analyze_ne_noSemanticParser (sem : LangSemantics) (env : AnalysisEnv)
    (file s : String) :
    sem.analyze env file ≠ .error (.noSemanticParser s) := by
  intro h
  simp only [LangSemantics.analyze] at h
  split at h
  · simp at h
  · split at h <;> simp at h

theorem compute_semantic_weight_ne_noSemanticParser {env : AnalysisEnv}
    {file : String} (h : hasSemanticParser env file = true) (s : String) :
    compute_semantic_weight env file ≠ .error (.noSemanticParser s) := by
  unfold compute_semantic_weight
  unfold hasSemanticParser at h
  cases hl : loadSemanticParser env file with
  | none => rw [hl] at h; cases h
  | some sem =>
    simp only [hl]
    exact analyze_ne_noSemanticParser sem env file s

theorem groupedFiles_ne_noSemanticParser (env : AnalysisEnv) (files : List String)
    (s : String) :
    groupedFiles env files ≠ .error (.noSemanticParser s) := by
  induction files with
  | nil => intro h; cases h
  | cons f files ih =>
    simp only [groupedFiles]
    cases hp : hasSemanticParser env f with
    | true =>
      simp only [if_true]
      cases hc : compute_semantic_weight env f with
      | error e =>
        intro h
        simp only [Except.error.injEq] at h
        subst h
        exact compute_semantic_weight_ne_noSemanticParser hp s hc
      | ok p =>
        cases hg : groupedFiles env files with
        | error e =>
          intro h
          simp only [Except.error.injEq] at h
          subst h
          exact ih hg
        | ok r => intro h; cases h
    | false =>
      simp only [Bool.false_eq_true, if_false]
      cases hg : groupedFiles env files with
      | error e =>
        intro h
        simp only [Except.error.injEq] at h
        subst h
        exact ih hg
      | ok r => intro h; cases h

/-- Every non-root node of a parse result is the record of one input line:
its kind and range come from `parseLine`, its `parent` field is the root
index and it has no children. -/
theorem ParseInv.node_shape {lines : List String} {st : ParseState}
    (hinv : ParseInv lines st) {i : Nat} {el : LangElement} (h1 : 1 ≤ i)
    (hel : st.nodes[i]? = some el) :
    ∃ line ∈ lines, ∃ k s e, parseLine line = some (k, s, e) ∧
      el = ⟨k, some 0, [], s, e⟩ := by
  obtain ⟨-, -, -, hnodes⟩ := hinv
  obtain ⟨k', rfl⟩ : ∃ k', i = k' + 1 := ⟨i - 1, by omega⟩
  rw [hnodes k'] at hel
  cases hll : lines[k']? with
  | none => simp only [hll, Option.none_bind] at hel; cases hel
  | some line =>
    simp only [hll, Option.some_bind, nodeOfLine] at hel
    cases hpl : parseLine line with
    | none => simp only [hpl, Option.map_none'] at hel; cases hel
    | some p =>
      obtain ⟨k, s, e⟩ := p
      simp only [hpl, Option.map_some', Option.some.injEq] at hel
      exact ⟨line, List.getElem?_mem hll, k, s, e, hpl, hel.symm⟩

/-! ### The claims -/

/-- C1, counterexample: on the four-line input the element `class[0-100]`
(node 1) has NO children — the two functions are not attached to it, so the
claimed tree shape is false on the code. -/
theorem C1_counterexample :
    parse_structure c1Lines = some c1Result ∧
    (c1Result.nodes.getD 1 default).kind = "class" ∧
    (c1Result.nodes.getD 1 default).start = 0 ∧
    (c1Result.nodes.getD 1 default).«end» = 100 ∧
    (c1Result.nodes.getD 1 default).children.length ≠ 2 := by
  exact ⟨rfl, rfl, rfl, rfl, by decide⟩

/-- C1, amended: parsing the four lines yields `root.end = 120`, but all four
elements become direct children of the root: `class[0-100]` has no children,
the two functions and `class[110-120]` are siblings of it, and the anchor
never switches (it stays at the root, index 0). -/
theorem C1_root_end_120_all_children_of_root :
    parse_structure c1Lines = some c1Result ∧
    c1Result.parentIdx = 0 ∧
    (c1Result.nodes.getD 0 default).«end» = 120 ∧
    (c1Result.nodes.getD 0 default).children = [1, 2, 3, 4] ∧
    c1Result.nodes.getD 1 default = ⟨"class", some 0, [], 0, 100⟩ ∧
    c1Result.nodes.getD 2 default = ⟨"function", some 0, [], 10, 20⟩ ∧
    c1Result.nodes.getD 3 default = ⟨"function", some 0, [], 30, 40⟩ ∧
    c1Result.nodes.getD 4 default = ⟨"class", some 0, [], 110, 120⟩ := by
  exact ⟨rfl, rfl, rfl, rfl, rfl, rfl, rfl, rfl⟩

/-- C2: when every parsed start is non-negative, the anchor pointer never
leaves the root (also after every prefix of the input), every element is
attached as a direct child of the synthetic root, and no element ever gains
children — the tree always has depth 1. -/
theorem C2_anchor_never_leaves_root (lines : List String) (st : ParseState)
    (hparse : parse_structure lines = some st)
    (hnonneg : ∀ line ∈ lines, ∀ k : String, ∀ s e : Int,
      parseLine line = some (k, s, e) → 0 ≤ s) :
    st.parentIdx = 0 ∧
    (∀ pre suf : List String, ∀ stp : ParseState, lines = pre ++ suf →
      parse_structure pre = some stp → stp.parentIdx = 0) ∧
    (∃ rootEl, st.nodes[0]? = some rootEl ∧
      rootEl.children = List.range' 1 (st.nodes.length - 1)) ∧
    (∀ i : Nat, ∀ el : LangElement, 1 ≤ i → st.nodes[i]? = some el →
      el.children = []) := by
  have hinv := parse_structure_inv hparse
  obtain ⟨hpi, hlen, hroot, hnodes⟩ := hinv
  refine ⟨hpi, ?_, ?_, ?_⟩
  · intro pre suf stp heq hp
    exact (parse_structure_inv hp).1
  · refine ⟨_, hroot, ?_⟩
    rw [hlen]
    simp
  · intro i el h1 hel
    obtain ⟨line, hmem, k2, s, e, hpl, hshape⟩ :=
      ParseInv.node_shape ⟨hpi, hlen, hroot, hnodes⟩ h1 hel
    rw [hshape]

/-- C4: for every non-empty accepted input, the root's `end` is the maximum
`end` over the parsed elements: it is attained by some element and bounds
them all. -/
theorem C4_root_end_is_max (lines : List String) (st : ParseState)
    (hparse : parse_structure lines = some st) (hne : lines ≠ []) :
    ∃ rootEl, st.nodes[0]? = some rootEl ∧
      (∃ i : Nat, ∃ el : LangElement, 1 ≤ i ∧ st.nodes[i]? = some el ∧
        el.«end» = rootEl.«end») ∧
      (∀ i : Nat, ∀ el : LangElement, 1 ≤ i → st.nodes[i]? = some el →
        el.«end» ≤ rootEl.«end») := by
  have hinv := parse_structure_inv hparse
  obtain ⟨hpi, hlen, hroot, hnodes⟩ := hinv
  refine ⟨_, hroot, ?_, ?_⟩
  · rcases rootEndSpec_attained lines with hzero | ⟨line, hmem, k, s, e, hpl, hval⟩
    · -- the accumulated end is 0; the first element's end must then be 0
      obtain ⟨l0, rest, rfl⟩ : ∃ l0 rest, lines = l0 :: rest := by
        cases lines with
        | nil => exact absurd rfl hne
        | cons a b => exact ⟨a, b, rfl⟩
      have h1lt : 1 < st.nodes.length := by rw [hlen]; simp
      have hel : st.nodes[1]? = some st.nodes[1] := List.getElem?_eq_getElem h1lt
      obtain ⟨line, hmem, k, s, e, hpl, hshape⟩ :=
        ParseInv.node_shape ⟨hpi, hlen, hroot, hnodes⟩ (le_refl 1) hel
      have hle : e ≤ rootEndSpec (l0 :: rest) := end_le_rootEndSpec hmem hpl
      have hge : 0 ≤ e := (parseLine_nonneg hpl).2
      refine ⟨1, st.nodes[1], le_refl 1, hel, ?_⟩
      rw [hshape]
      simp only [hzero]
      omega
    · obtain ⟨k', hk'⟩ := List.getElem?_of_mem hmem
      refine ⟨k' + 1, ⟨k, some 0, [], s, e⟩, by omega, ?_, ?_⟩
      · rw [hnodes k', hk']
        simp [nodeOfLine, hpl]
      · simp [hval]
  · intro i el h1 hel
    obtain ⟨line, hmem, k, s, e, hpl, hshape⟩ :=
      ParseInv.node_shape ⟨hpi, hlen, hroot, hnodes⟩ h1 hel
    rw [hshape]
    exact end_le_rootEndSpec hmem hpl

/-- C4, witness: the theorem applied to the one-line input `c4Lines`. -/
theorem C4_root_end_is_max_witness :
    ∃ rootEl, ((parse_structure c4Lines).getD default).nodes[0]? = some rootEl ∧
      (∃ i : Nat, ∃ el : LangElement, 1 ≤ i ∧
        ((parse_structure c4Lines).getD default).nodes[i]? = some el ∧
        el.«end» = rootEl.«end») ∧
      (∀ i : Nat, ∀ el : LangElement, 1 ≤ i →
        ((parse_structure c4Lines).getD default).nodes[i]? = some el →
        el.«end» ≤ rootEl.«end») :=
  C4_root_end_is_max c4Lines ((parse_structure c4Lines).getD default) rfl
    (by decide)

/-- C2, witness: the theorem applied to the two-line input `c2Lines`, whose
parsed starts (0 and 10) are non-negative. -/
theorem C2_anchor_never_leaves_root_witness :
    ((parse_structure c2Lines).getD default).parentIdx = 0 ∧
    (∀ pre suf : List String, ∀ stp : ParseState, c2Lines = pre ++ suf →
      parse_structure pre = some stp → stp.parentIdx = 0) ∧
    (∃ rootEl, ((parse_structure c2Lines).getD default).nodes[0]? = some rootEl ∧
      rootEl.children =
        List.range' 1 (((parse_structure c2Lines).getD default).nodes.length - 1)) ∧
    (∀ i : Nat, ∀ el : LangElement, 1 ≤ i →
      ((parse_structure c2Lines).getD default).nodes[i]? = some el →
      el.children = []) := by
  refine C2_anchor_never_leaves_root c2Lines ((parse_structure c2Lines).getD default)
    rfl ?_
  intro line hline k s e hp
  rcases List.mem_cons.mp hline with rfl | hline2
  · rw [show parseLine "class - [0-100]" = some ("class", 0, 100) from rfl] at hp
    cases hp
    decide
  · rcases List.mem_cons.mp hline2 with rfl | hline3
    · rw [show parseLine "function - [10-20]" = some ("function", 10, 20) from rfl] at hp
      cases hp
      decide
    · cases hline3

/-- C5, counterexample: `"class - 0-100"` violates the spec grammar (the
brackets are missing) yet `_parse_structure` accepts it, so not every
grammar-violating line is a fatal parse error. -/
theorem C5_counterexample :
    specGrammarLine c5BadLine.data = false ∧
    parse_structure [c5BadLine] =
      some ⟨[⟨"root", none, [1], 0, 100⟩, ⟨"class", some 0, [], 0, 100⟩], 0⟩ := by
  exact ⟨rfl, rfl⟩

/-- C5, amended: a line whose first `-` does not separate a kind from a
two-integer range is fatal: any input list containing `"class [0-100]"`
(whose separator is missing) makes `parse` fail with no partial tree — but
grammar violations that still split into two integers are accepted. -/
theorem C5_missing_separator_fatal (lines : List String)
    (hmem : "class [0-100]" ∈ lines) :
    parse_structure lines = none ∧ specGrammarLine "class [0-100]".data = false := by
  exact ⟨parse_structure_eq_none_of_bad hmem rfl, rfl⟩

/-- C5, witness: the amended theorem applied to the singleton input. -/
theorem C5_missing_separator_fatal_witness :
    parse_structure ["class [0-100]"] = none ∧
    specGrammarLine "class [0-100]".data = false :=
  C5_missing_separator_fatal ["class [0-100]"] (List.mem_singleton.mpr rfl)

/-- C8, counterexample: the parser accepts `"class - [100-5]"` and produces
an element with `start = 100 > 5 = end`, so `start <= end` does not hold for
every produced element. -/
theorem C8_counterexample :
    parse_structure c8Lines = some c8Result ∧
    ¬((c8Result.nodes.getD 1 default).start ≤ (c8Result.nodes.getD 1 default).«end») := by
  exact ⟨rfl, by decide⟩

/-- C8, amended: the synthetic root always satisfies `start <= end`, and
every element of the parse result satisfies it provided each parsed line's
range already does — the builder never enforces it itself. -/
theorem C8_start_le_end (lines : List String) (st : ParseState)
    (hparse : parse_structure lines = some st)
    (hse : ∀ line ∈ lines, ∀ k : String, ∀ s e : Int,
      parseLine line = some (k, s, e) → s ≤ e) :
    ∀ i : Nat, ∀ el : LangElement, st.nodes[i]? = some el →
      el.start ≤ el.«end» := by
  have hinv := parse_structure_inv hparse
  obtain ⟨hpi, hlen, hroot, hnodes⟩ := hinv
  intro i el hel
  cases i with
  | zero =>
    rw [hroot] at hel
    cases hel
    simpa using rootEndSpec_nonneg lines
  | succ i =>
    obtain ⟨line, hmem, k, s, e, hpl, hshape⟩ :=
      ParseInv.node_shape ⟨hpi, hlen, hroot, hnodes⟩ (by omega) hel
    rw [hshape]
    exact hse line hmem k s e hpl

/-- C8, witness: the amended theorem applied to a one-line input with an
ordered range. -/
theorem C8_start_le_end_witness :
    (((parse_structure c4Lines).getD default).nodes.getD 1 default).start ≤
      (((parse_structure c4Lines).getD default).nodes.getD 1 default).«end» := by
  refine C8_start_le_end c4Lines ((parse_structure c4Lines).getD default) rfl ?_ 1
    (((parse_structure c4Lines).getD default).nodes.getD 1 default) rfl
  intro line hline k s e hp
  rcases List.mem_cons.mp hline with rfl | hline2
  · rw [show parseLine "class - [0-100]" = some ("class", 0, 100) from rfl] at hp
    cases hp
    decide
  · cases hline2

/-- C9, counterexample: on the very input shape the claim's scenario needs,
every element's `parent` field is the root (index 0) and every element is a
child of the root — the parent back-reference always names the node holding
the element, because the anchor never becomes a non-root class. -/
theorem C9_counterexample :
    parse_structure c9Lines = some c9Result ∧
    c9Result.parentIdx = 0 ∧
    (c9Result.nodes.getD 0 default).children = [1, 2, 3] ∧
    (c9Result.nodes.getD 1 default).parent = some 0 ∧
    (c9Result.nodes.getD 2 default).parent = some 0 ∧
    (c9Result.nodes.getD 3 default).parent = some 0 ∧
    (c9Result.nodes.getD 1 default).children = [] ∧
    (c9Result.nodes.getD 2 default).children = [] ∧
    (c9Result.nodes.getD 3 default).children = [] := by
  exact ⟨rfl, rfl, rfl, rfl, rfl, rfl, rfl, rfl, rfl⟩

/-- C9, amended: in every tree `parse` returns, each non-root element's
`parent` field is `some 0`, the element is listed in the root's children,
and no non-root element's children list contains it — so the back-reference
always names exactly the node whose children list holds the element. -/
theorem C9_parent_matches_container (lines : List String) (st : ParseState)
    (hparse : parse_structure lines = some st) :
    ∀ i : Nat, ∀ el : LangElement, 1 ≤ i → st.nodes[i]? = some el →
      el.parent = some 0 ∧
      (∃ rootEl, st.nodes[0]? = some rootEl ∧ i ∈ rootEl.children) ∧
      (∀ j : Nat, ∀ elj : LangElement, 1 ≤ j → st.nodes[j]? = some elj →
        i ∉ elj.children) := by
  have hinv := parse_structure_inv hparse
  obtain ⟨hpi, hlen, hroot, hnodes⟩ := hinv
  intro i el h1 hel
  obtain ⟨line, hmem, k, s, e, hpl, hshape⟩ :=
    ParseInv.node_shape ⟨hpi, hlen, hroot, hnodes⟩ h1 hel
  refine ⟨by rw [hshape], ⟨_, hroot, ?_⟩, ?_⟩
  · have hilt : i < st.nodes.length := (List.getElem?_eq_some.mp hel).1
    rw [hlen] at hilt
    exact List.mem_range'_1.mpr ⟨h1, by omega⟩
  · intro j elj hj helj
    obtain ⟨line2, hmem2, k2, s2, e2, hpl2, hshape2⟩ :=
      ParseInv.node_shape ⟨hpi, hlen, hroot, hnodes⟩ hj helj
    rw [hshape2]
    simp

/-- C9, witness for the amended theorem: applied to the one-line input. -/
theorem C9_parent_matches_container_witness :
    (((parse_structure c4Lines).getD default).nodes.getD 1 default).parent = some 0 ∧
    (∃ rootEl, ((parse_structure c4Lines).getD default).nodes[0]? = some rootEl ∧
      1 ∈ rootEl.children) ∧
    (∀ j : Nat, ∀ elj : LangElement, 1 ≤ j →
      ((parse_structure c4Lines).getD default).nodes[j]? = some elj →
      1 ∉ elj.children) :=
  C9_parent_matches_container c4Lines ((parse_structure c4Lines).getD default) rfl 1
    (((parse_structure c4Lines).getD default).nodes.getD 1 default) (le_refl 1) rfl

/-- C3: for every element and weight model, the score is exactly the
unclamped sum of the four spec terms (length, class, function,
property/field), and for some input the total is negative — no clamping
anywhere. -/
theorem C3_score_is_unclamped_sum :
    (∀ (nodes : List LangElement) (el : LangElement) (wm : SemanticWeightModel),
      el.compute_weight nodes wm =
        specLengthTerm wm el + specClassTerm wm el nodes +
        specFunctionTerm wm el nodes + specPropertyFieldTerm wm el nodes) ∧
    (∃ (nodes : List LangElement) (el : LangElement) (wm : SemanticWeightModel),
      el.compute_weight nodes wm < 0) := by
  constructor
  · intro nodes el wm
    simp only [LangElement.compute_weight, specLengthTerm, specClassTerm,
      specFunctionTerm, specPropertyFieldTerm, List.length_append]
    push_cast
    ring
  · refine ⟨[], ⟨"x", none, [], 0, 0⟩,
      { base_function_weight := 1, function_lower_limit := 1 }, ?_⟩
    norm_num [LangElement.compute_weight, LangElement.classes,
      LangElement.functions, LangElement.fields, LangElement.properties,
      LangElement.childElems]

/-- C6: when each supported file's analysis succeeds, batch scoring returns
one inner list per group in order, one pair per file in order, where an
unsupported file always yields the fallback pair (zero model, root-only
element) and a supported file yields its analysis result — nothing is
skipped and nothing raises. -/
theorem C6_batch_mirrors_order_with_fallback (env : AnalysisEnv)
    (groups : List FileGroup)
    (h : ∀ g ∈ groups, ∀ f ∈ g.files, hasSemanticParser env f = true →
      ∃ p, compute_semantic_weight env f = Except.ok p) :
    ∃ rs : List (List (SemanticWeightModel × ParseState)),
      compute_semantic_weight_result env groups = Except.ok rs ∧
      rs.length = groups.length ∧
      ∀ gi : Nat, ∀ g : FileGroup, groups[gi]? = some g →
        ∃ r : List (SemanticWeightModel × ParseState),
          rs[gi]? = some r ∧ r.length = g.files.length ∧
          ∀ k : Nat, ∀ f : String, g.files[k]? = some f →
            (hasSemanticParser env f = false → r[k]? = some fallbackPair) ∧
            (∀ p, compute_semantic_weight env f = Except.ok p →
              hasSemanticParser env f = true → r[k]? = some p) := by
  unfold compute_semantic_weight_result
  exact resultGroups_spec h

/-- C6, witness: the theorem applied to `c6Env` and `c6Groups`; the only
supported file `a.cs` analyzes successfully. -/
theorem C6_batch_mirrors_order_with_fallback_witness :
    ∃ rs : List (List (SemanticWeightModel × ParseState)),
      compute_semantic_weight_result c6Env c6Groups = Except.ok rs ∧
      rs.length = c6Groups.length ∧
      ∀ gi : Nat, ∀ g : FileGroup, c6Groups[gi]? = some g →
        ∃ r : List (SemanticWeightModel × ParseState),
          rs[gi]? = some r ∧ r.length = g.files.length ∧
          ∀ k : Nat, ∀ f : String, g.files[k]? = some f →
            (hasSemanticParser c6Env f = false → r[k]? = some fallbackPair) ∧
            (∀ p, compute_semantic_weight c6Env f = Except.ok p →
              hasSemanticParser c6Env f = true → r[k]? = some p) := by
  refine C6_batch_mirrors_order_with_fallback c6Env c6Groups ?_
  intro g hg f hf hp
  rcases List.mem_cons.mp hg with rfl | hg2
  · rcases List.mem_cons.mp hf with rfl | hf2
    · exact ⟨_, rfl⟩
    · rcases List.mem_cons.mp hf2 with rfl | hf3
      · exact absurd hp (by decide)
      · cases hf3
  · cases hg2

/-- C7: a non-zero analyzer exit status makes `analyze` fail with the
analyzer-execution error carrying that exit code — nothing of the process
output reaches a result. -/
theorem C7_nonzero_exit_fatal (env : AnalysisEnv) (sem : LangSemantics)
    (file : String) (h : (env.run sem file).1 ≠ 0) :
    sem.analyze env file =
      Except.error (.analyzerExecutionError (env.run sem file).1) := by
  simp only [LangSemantics.analyze]
  rw [if_pos h]

/-- C7, witness: the theorem applied to `c7Env`. -/
theorem C7_nonzero_exit_fatal_witness :
    LangSemantics.analyze ⟨"cs", "dotnet run"⟩ c7Env "x.cs" =
      Except.error (.analyzerExecutionError 1) :=
  C7_nonzero_exit_fatal c7Env ⟨"cs", "dotnet run"⟩ "x.cs" (by decide)

/-- C10: calling `compute_semantic_weight` directly on a file with no
resolvable analyzer fails with the assertion error, but the batch path can
never produce that error: `compute_semantic_weight_grouped` only calls it
after `has_semantic_parser` returned true. -/
theorem C10_assert_unreachable_from_batch (env : AnalysisEnv) (file : String)
    (g : FileGroup) (s : String) :
    (loadSemanticParser env file = none →
      compute_semantic_weight env file = Except.error (.noSemanticParser file)) ∧
    compute_semantic_weight_grouped env g ≠ Except.error (.noSemanticParser s) := by
  constructor
  · intro h
    simp only [compute_semantic_weight, h]
  · unfold compute_semantic_weight_grouped
    exact groupedFiles_ne_noSemanticParser env g.files s

/-- C10, witness: the theorem applied to `c10Env` and the extensionless file
`LICENSE`, for which no analyzer resolves. -/
theorem C10_assert_unreachable_from_batch_witness :
    compute_semantic_weight c10Env "LICENSE" =
      Except.error (.noSemanticParser "LICENSE") ∧
    compute_semantic_weight_grouped c10Env ⟨["LICENSE"]⟩ ≠
      Except.error (.noSemanticParser "LICENSE") := by
  have h := C10_assert_unreachable_from_batch c10Env "LICENSE" ⟨["LICENSE"]⟩ "LICENSE"
  exact ⟨h.1 rfl, h.2⟩
